import Mathlib

/-!
# Verification of the FIAT reference-element core

A shallow embedding, in Lean 4, of the reference-cell geometry/topology
engine and dual-basis machinery of the FIAT repository
(`FIAT/reference_element.py`, `FIAT/lagrange.py`, `FIAT/P0.py`,
`FIAT/brezzi_douglas_marini.py`), together with theorems settling the
frozen specification claims about it.

Conventions used throughout:

* Python tuples/lists of numbers become `List ℚ` (exact rational
  arithmetic stands in for IEEE doubles wherever the Python code performs
  exact operations), or real-number tuples where square roots appear.
* Python dicts keyed by consecutive integers become `List`s indexed by
  position; dicts with general keys become association lists.
* Fallible code returns `Except String`/`Option`.
-/

namespace FIATSpec

/-! ## UFCSimplex.distance_to_point_l1 (reference_element.py lines 552-687)

The source computes, for a point in R^d,
`bary = [1.0 - sum(point)] + list(point)`,
`l1_dist = - 0.5 * sum([b - abs(b) for b in bary])`, and returns
`abs(l1_dist)`.  The embedding is generic over a linear ordered field so
that the theorems cover both exact rationals and the reals. -/

/-- The generalized barycentric coordinates `[1 - sum(point)] + point`
of a point relative to the UFC simplex of dimension `point.length`
(from `UFCSimplex.distance_to_point_l1`). -/
def baryCoords {α : Type} [LinearOrderedField α] (point : List α) : List α :=
  (1 - point.sum) :: point

/-- Shallow embedding of `UFCSimplex.distance_to_point_l1`:
`l1_dist = - 0.5 * sum([b - abs(b) for b in bary])`, returned as
`abs(l1_dist)` ("take abs at the end to avoid negative zero"). -/
def distanceToPointL1 {α : Type} [LinearOrderedField α] (point : List α) : α :=
  |(-(1 / 2 : α)) * ((baryCoords point).map (fun b => b - |b|)).sum|

theorem sum_sub_abs_nonpos {α : Type} [LinearOrderedField α] (l : List α) :
    (l.map (fun b => b - |b|)).sum ≤ 0 := by
  induction l with
  | nil => simp
  | cons a l ih =>
      simp only [List.map_cons, List.sum_cons]
      have ha : a - |a| ≤ 0 := sub_nonpos.mpr (le_abs_self a)
      linarith

theorem sum_sub_abs_eq_zero_iff {α : Type} [LinearOrderedField α] (l : List α) :
    (l.map (fun b => b - |b|)).sum = 0 ↔ ∀ b ∈ l, 0 ≤ b := by
  induction l with
  | nil => simp
  | cons a l ih =>
      simp only [List.map_cons, List.sum_cons, List.mem_cons]
      have ha : a - |a| ≤ 0 := sub_nonpos.mpr (le_abs_self a)
      have hl : (l.map (fun b => b - |b|)).sum ≤ 0 := sum_sub_abs_nonpos l
      constructor
      · intro h
        have ha0 : a - |a| = 0 := by linarith
        have hl0 : (l.map (fun b => b - |b|)).sum = 0 := by linarith
        have hpos : 0 ≤ a := by
          have : |a| = a := by linarith
          exact this ▸ abs_nonneg a
        rcases ih.mp hl0 with hrest
        intro b hb
        rcases hb with rfl | hb
        · exact hpos
        · exact hrest b hb
      · intro h
        have ha0 : a - |a| = 0 := by
          have := abs_of_nonneg (h a (Or.inl rfl))
          linarith
        have hl0 : (l.map (fun b => b - |b|)).sum = 0 :=
          ih.mpr (fun b hb => h b (Or.inr hb))
        rw [ha0, hl0, add_zero]

/-- C3: for every d-dimensional UFC simplex and every point,
`distance_to_point_l1(point)` equals the negated half-sum of
`b - |b|` over the generalized barycentric coordinates
`b = (1 - sum(p), p_1, ..., p_d)`; it is zero exactly when all
barycentric coordinates are non-negative (the point lies inside); on
the UFC triangle the point `(1,1)` yields L1 distance `1` and the
point `(-1,-1)` yields `2`. -/
theorem distanceToPointL1_spec :
    (∀ (α : Type) (inst : LinearOrderedField α) (point : List α),
        distanceToPointL1 point
          = -(1 / 2 : α) * ((baryCoords point).map (fun b => b - |b|)).sum)
    ∧ (∀ (α : Type) (inst : LinearOrderedField α) (point : List α),
        distanceToPointL1 point = 0 ↔ ∀ b ∈ baryCoords point, 0 ≤ b)
    ∧ distanceToPointL1 [(1 : ℚ), 1] = 1
    ∧ distanceToPointL1 [(-1 : ℚ), -1] = 2 := by
  have habs : ∀ (α : Type) (inst : LinearOrderedField α) (point : List α),
      distanceToPointL1 point
        = -(1 / 2 : α) * ((baryCoords point).map (fun b => b - |b|)).sum := by
    intro α inst point
    unfold distanceToPointL1
    have hs := sum_sub_abs_nonpos (α := α) (baryCoords point)
    have : 0 ≤ -(1 / 2 : α) * ((baryCoords point).map (fun b => b - |b|)).sum := by
      have h2 : (0 : α) < 1 / 2 := by norm_num
      nlinarith
    exact abs_of_nonneg this
  refine ⟨habs, ?_, ?_, ?_⟩
  case refine_2 =>
    rw [habs ℚ inferInstance [1, 1]]
    norm_num [baryCoords]
  case refine_3 =>
    rw [habs ℚ inferInstance [-1, -1]]
    norm_num [baryCoords]
  intro α inst point
  rw [habs α inst point]
  rw [← sum_sub_abs_eq_zero_iff (α := α) (baryCoords point)]
  constructor
  · intro h
    have h2 : (-(1 / 2 : α)) ≠ 0 := by norm_num
    exact (mul_eq_zero.mp h).resolve_left h2
  · intro h
    rw [h, mul_zero]

/-- Witness for C3: the spec's concrete UFC-triangle value at `(1, 1)`,
read off the main theorem. -/
theorem distanceToPointL1_spec_witness :
    distanceToPointL1 [(1 : ℚ), 1] = 1 :=
  distanceToPointL1_spec.2.2.1

/-! ## Cell.__init__ sub-entity table (reference_element.py lines 139-155)

A topology is stored as `t[i][j]`: `i` the dimension, `j` the entity
index of that dimension, the value the tuple of incident vertex indices.
Integer dimension keys `0, 1, ...` become list positions.  For every
entity the source collects all `(dim_, e_)` with
`frozenset(v).issuperset(vertices_)` — i.e. whose vertex set is a
subset of the entity's own vertex set — and sorts the resulting pair
list (Python tuple order). -/

/-- A cell topology: `top[dim][e]` is the vertex-index tuple of entity
`e` of dimension `dim` (the `topology` argument of `Cell.__init__`). -/
abbrev CellTopology := List (List (List ℕ))

/-- The vertex-index tuple of entity `e` of dimension `dim`. -/
def entityVerts (top : CellTopology) (dim e : ℕ) : List ℕ :=
  (top.getD dim []).getD e []

/-- Python tuple order on `(dim, entity)` pairs, as used by `sorted`
in `Cell.__init__`. -/
def pairR (p q : ℕ × ℕ) : Prop :=
  p.1 < q.1 ∨ (p.1 = q.1 ∧ p.2 ≤ q.2)

instance : DecidableRel pairR := fun p q => by
  unfold pairR; infer_instance

instance : IsTotal (ℕ × ℕ) pairR := ⟨by intro a b; unfold pairR; omega⟩

instance : IsTrans (ℕ × ℕ) pairR := ⟨by intro a b c; unfold pairR; omega⟩

/-- Shallow embedding of the sub-entity table built by `Cell.__init__`:
`sub_entities[dim][e]` is the sorted list of the pairs `(dim_, e_)`,
ranging over all dimensions and entities of the topology, for which the
vertex set of `(dim, e)` is a superset of the vertex set of
`(dim_, e_)` (`vertices.issuperset(vertices_)`). -/
def subEntities (top : CellTopology) (dim e : ℕ) : List (ℕ × ℕ) :=
  let vs := entityVerts top dim e
  let pairs := (List.range top.length).flatMap (fun d =>
    (List.range ((top.getD d []).length)).filterMap (fun e2 =>
      if entityVerts top d e2 ⊆ vs then some (d, e2) else none))
  pairs.insertionSort pairR

/-- The topology of the UFC reference interval (`UFCInterval.__init__`):
two vertices and one edge. -/
def ufcIntervalTopology : CellTopology := [[[0], [1]], [[0, 1]]]

/-- C1 counterexample: in the reference interval, the vertex set
`{0, 1}` of entity `(1, 0)` is a non-strict superset of the vertex set
`{0}` of entity `(0, 0)`, yet `(1, 0)` is not an element of
`sub_entities[0][0]` — the code includes the pairs whose vertex set is
a subset, not a superset, of the entity's vertex set. -/
theorem subEntities_superset_counterexample :
    entityVerts ufcIntervalTopology 0 0 ⊆ entityVerts ufcIntervalTopology 1 0
    ∧ (1, 0) ∉ subEntities ufcIntervalTopology 0 0 := by
  constructor
  · decide
  · decide

/-- C1 (amended): for every cell topology and every entity `(dim, e)`,
the table `sub_entities[dim][e]` includes every pair `(d2, e2)` whose
vertex set is a non-strict subset of entity `e`'s vertex set
(equivalently: of which `e`'s vertex set is a non-strict superset),
and the list is sorted in Python tuple order. -/
theorem subEntities_subset_mem_and_sorted
    (top : CellTopology) (dim e d2 e2 : ℕ)
    (hd : d2 < top.length) (he : e2 < (top.getD d2 []).length)
    (hsub : entityVerts top d2 e2 ⊆ entityVerts top dim e) :
    (d2, e2) ∈ subEntities top dim e
    ∧ (subEntities top dim e).Sorted pairR := by
  constructor
  · unfold subEntities
    rw [List.mem_insertionSort]
    have hmem : (d2, e2) ∈ (List.range ((top.getD d2 []).length)).filterMap
        (fun e2 => if entityVerts top d2 e2 ⊆ entityVerts top dim e
                   then some (d2, e2) else none) :=
      List.mem_filterMap.mpr ⟨e2, List.mem_range.mpr he, by simp [hsub]⟩
    exact List.mem_flatMap.mpr ⟨d2, List.mem_range.mpr hd, hmem⟩
  · exact List.sorted_insertionSort pairR _

/-- Witness for C1 (amended): in the reference interval, vertex
`(0, 0)` has vertex set `{0} ⊆ {0, 1}` and indeed appears in
`sub_entities[1][0]`, which is sorted. -/
theorem subEntities_subset_mem_and_sorted_witness :
    (0, 0) ∈ subEntities ufcIntervalTopology 1 0
    ∧ (subEntities ufcIntervalTopology 1 0).Sorted pairR :=
  subEntities_subset_mem_and_sorted ufcIntervalTopology 1 0 0 0
    (by decide) (by decide) (by decide)

/-! ## UFC facet normals (reference_element.py lines 763-767 and 870-874)

`UFCTriangle.compute_normal(i)` rotates the edge tangent:
`t = compute_tangents(1, i)[0]; n = (t[1], -t[0]); return n / norm(n)`.
`UFCTetrahedron.compute_normal(i)` crosses the two face tangents:
`t = compute_tangents(2, i); n = cross(t[0], t[1]);
return -2.0 * n / norm(n)`.
Vertices and facet tuples are copied from `UFCTriangle.__init__` and
`UFCTetrahedron.__init__`.  Real numbers replace IEEE doubles. -/

/-- Euclidean inner product on pairs. -/
def dot2 (a b : ℝ × ℝ) : ℝ := a.1 * b.1 + a.2 * b.2

/-- Componentwise difference of pairs. -/
def sub2 (a b : ℝ × ℝ) : ℝ × ℝ := (a.1 - b.1, a.2 - b.2)

/-- Euclidean norm on pairs (`numpy.linalg.norm`). -/
noncomputable def norm2v (a : ℝ × ℝ) : ℝ := Real.sqrt (dot2 a a)

/-- Euclidean inner product on triples. -/
def dot3 (a b : ℝ × ℝ × ℝ) : ℝ := a.1 * b.1 + a.2.1 * b.2.1 + a.2.2 * b.2.2

/-- Componentwise difference of triples. -/
def sub3 (a b : ℝ × ℝ × ℝ) : ℝ × ℝ × ℝ :=
  (a.1 - b.1, a.2.1 - b.2.1, a.2.2 - b.2.2)

/-- Cross product of triples (`numpy.cross`). -/
def cross3 (a b : ℝ × ℝ × ℝ) : ℝ × ℝ × ℝ :=
  (a.2.1 * b.2.2 - a.2.2 * b.2.1,
   a.2.2 * b.1 - a.1 * b.2.2,
   a.1 * b.2.1 - a.2.1 * b.1)

/-- Euclidean norm on triples (`numpy.linalg.norm`). -/
noncomputable def norm3v (a : ℝ × ℝ × ℝ) : ℝ := Real.sqrt (dot3 a a)

/-- Vertices of the UFC triangle: `(0,0), (1,0), (0,1)`. -/
def triVert : ℕ → ℝ × ℝ
  | 0 => (0, 0)
  | 1 => (1, 0)
  | _ => (0, 1)

/-- Edges of the UFC triangle: `{0: (1,2), 1: (0,2), 2: (0,1)}`. -/
def triEdge : ℕ → ℕ × ℕ
  | 0 => (1, 2)
  | 1 => (0, 2)
  | _ => (0, 1)

/-- `Simplex.compute_tangents(1, i)[0]` on the UFC triangle: the
difference of the two edge vertices. -/
def triTangent (i : ℕ) : ℝ × ℝ :=
  sub2 (triVert (triEdge i).2) (triVert (triEdge i).1)

/-- Shallow embedding of `UFCTriangle.compute_normal`. -/
noncomputable def triComputeNormal (i : ℕ) : ℝ × ℝ :=
  let t := triTangent i
  let n : ℝ × ℝ := (t.2, -t.1)
  (n.1 / norm2v n, n.2 / norm2v n)

/-- The unique triangle vertex not on edge `i` (the set difference
computed in the sign step of `Simplex.compute_normal`). -/
def triOffVert : ℕ → ℕ
  | 0 => 0
  | 1 => 1
  | _ => 2

/-- The `j`-th vertex of triangle edge `i`. -/
def triFacetVert (i : Fin 3) (j : Fin 2) : ℕ :=
  if j.val = 0 then (triEdge i).1 else (triEdge i).2

/-- Vertices of the UFC tetrahedron: `(0,0,0), (1,0,0), (0,1,0), (0,0,1)`. -/
def tetVert : ℕ → ℝ × ℝ × ℝ
  | 0 => (0, 0, 0)
  | 1 => (1, 0, 0)
  | 2 => (0, 1, 0)
  | _ => (0, 0, 1)

/-- Faces of the UFC tetrahedron:
`{0: (1,2,3), 1: (0,2,3), 2: (0,1,3), 3: (0,1,2)}`. -/
def tetFace : ℕ → ℕ × ℕ × ℕ
  | 0 => (1, 2, 3)
  | 1 => (0, 2, 3)
  | 2 => (0, 1, 3)
  | _ => (0, 1, 2)

/-- `Simplex.compute_tangents(2, i)[0]` on the UFC tetrahedron. -/
def tetTangent1 (i : ℕ) : ℝ × ℝ × ℝ :=
  sub3 (tetVert (tetFace i).2.1) (tetVert (tetFace i).1)

/-- `Simplex.compute_tangents(2, i)[1]` on the UFC tetrahedron. -/
def tetTangent2 (i : ℕ) : ℝ × ℝ × ℝ :=
  sub3 (tetVert (tetFace i).2.2) (tetVert (tetFace i).1)

/-- Shallow embedding of `UFCTetrahedron.compute_normal`:
`-2.0 * cross(t0, t1) / norm(cross(t0, t1))`. -/
noncomputable def tetComputeNormal (i : ℕ) : ℝ × ℝ × ℝ :=
  let n := cross3 (tetTangent1 i) (tetTangent2 i)
  (-2 * n.1 / norm3v n, -2 * n.2.1 / norm3v n, -2 * n.2.2 / norm3v n)

/-- The unique tetrahedron vertex not on face `i`. -/
def tetOffVert : ℕ → ℕ
  | 0 => 0
  | 1 => 1
  | 2 => 2
  | _ => 3

/-- The `j`-th vertex of tetrahedron face `i`. -/
def tetFacetVert (i : Fin 4) (j : Fin 3) : ℕ :=
  if j.val = 0 then (tetFace i).1
  else if j.val = 1 then (tetFace i).2.1
  else (tetFace i).2.2

/-- Which triangle normals point away from the cell: `+1` for edges 0
and 2, `-1` for edge 1 (whose UFC-consistent normal points inward). -/
def triSign (i : Fin 3) : ℝ := if i.val = 1 then -1 else 1

/-- Which tetrahedron normals point away from the cell: `+1` for faces
1 and 3, `-1` for faces 0 and 2. -/
def tetSign (i : Fin 4) : ℝ := if i.val = 0 ∨ i.val = 2 then -1 else 1

theorem triNormal0 : triComputeNormal 0 = (1 / Real.sqrt 2, 1 / Real.sqrt 2) := by
  unfold triComputeNormal triTangent triEdge triVert norm2v dot2 sub2
  norm_num

theorem triNormal1 : triComputeNormal 1 = (1, 0) := by
  unfold triComputeNormal triTangent triEdge triVert norm2v dot2 sub2
  norm_num

theorem triNormal2 : triComputeNormal 2 = (0, -1) := by
  unfold triComputeNormal triTangent triEdge triVert norm2v dot2 sub2
  norm_num

theorem tetNormal0 :
    tetComputeNormal 0 = (-2 / Real.sqrt 3, -2 / Real.sqrt 3, -2 / Real.sqrt 3) := by
  unfold tetComputeNormal tetTangent1 tetTangent2 tetFace tetVert norm3v dot3 sub3 cross3
  norm_num

theorem tetNormal1 : tetComputeNormal 1 = (-2, 0, 0) := by
  unfold tetComputeNormal tetTangent1 tetTangent2 tetFace tetVert norm3v dot3 sub3 cross3
  norm_num

theorem tetNormal2 : tetComputeNormal 2 = (0, 2, 0) := by
  unfold tetComputeNormal tetTangent1 tetTangent2 tetFace tetVert norm3v dot3 sub3 cross3
  norm_num

theorem tetNormal3 : tetComputeNormal 3 = (0, 0, -2) := by
  unfold tetComputeNormal tetTangent1 tetTangent2 tetFace tetVert norm3v dot3 sub3 cross3
  norm_num

theorem sqrt_two_mul_self : Real.sqrt 2 * Real.sqrt 2 = 2 :=
  Real.mul_self_sqrt (by norm_num)

theorem sqrt_three_mul_self : Real.sqrt 3 * Real.sqrt 3 = 3 :=
  Real.mul_self_sqrt (by norm_num)

theorem sqrt_two_pos : 0 < Real.sqrt 2 := Real.sqrt_pos.mpr (by norm_num)

theorem sqrt_three_pos : 0 < Real.sqrt 3 := Real.sqrt_pos.mpr (by norm_num)

/-- C2 counterexample: on the UFC triangle, facet 1 (the edge `(0, 2)`
on the `y`-axis) has `compute_normal(1) = (1, 0)`, whose dot product
with the vector from the unique off-facet vertex `1 = (1, 0)` to the
facet vertex `0 = (0, 0)` is `-1 < 0`, not positive: the UFC-consistent
normal of this facet points into the cell. -/
theorem computeNormal_positive_counterexample :
    triComputeNormal 1 = (1, 0)
    ∧ ¬ (0 < dot2 (triComputeNormal 1) (sub2 (triVert 0) (triVert 1))) := by
  refine ⟨triNormal1, ?_⟩
  rw [triNormal1]
  unfold dot2 sub2 triVert
  norm_num

/-- C2 (amended): the UFC overrides of `compute_normal` return vectors
orthogonal to every tangent of the facet; the UFC triangle's normals
are unit vectors, while the UFC tetrahedron's have Euclidean norm 2
(squared norm 4, the code returning `-2 * n / |n|`); the dot product
with the vector from the unique off-facet vertex to any facet vertex is
positive for triangle facets 0 and 2 and tetrahedron facets 1 and 3,
and negative for triangle facet 1 and tetrahedron facets 0 and 2 (the
generic SVD-based `Simplex.compute_normal`, which does resolve the sign
to be positive, is floating-point numerical code outside this
embedding). -/
theorem computeNormal_ufc_overrides_spec :
    (∀ i : Fin 3, dot2 (triComputeNormal i.val) (triComputeNormal i.val) = 1)
    ∧ (∀ i : Fin 3, dot2 (triComputeNormal i.val) (triTangent i.val) = 0)
    ∧ (∀ i : Fin 3, ∀ j : Fin 2,
        0 < triSign i * dot2 (triComputeNormal i.val)
              (sub2 (triVert (triFacetVert i j)) (triVert (triOffVert i.val))))
    ∧ (∀ i : Fin 4, dot3 (tetComputeNormal i.val) (tetComputeNormal i.val) = 4)
    ∧ (∀ i : Fin 4, dot3 (tetComputeNormal i.val) (tetTangent1 i.val) = 0
                  ∧ dot3 (tetComputeNormal i.val) (tetTangent2 i.val) = 0)
    ∧ (∀ i : Fin 4, ∀ j : Fin 3,
        0 < tetSign i * dot3 (tetComputeNormal i.val)
              (sub3 (tetVert (tetFacetVert i j)) (tetVert (tetOffVert i.val)))) := by
  have h2 := sqrt_two_mul_self
  have h3 := sqrt_three_mul_self
  have p2 := sqrt_two_pos
  have p3 := sqrt_three_pos
  refine ⟨?_, ?_, ?_, ?_, ?_, ?_⟩
  · intro i
    fin_cases i <;>
      simp only [triNormal0, triNormal1, triNormal2, dot2] <;>
      field_simp <;> nlinarith
  · intro i
    fin_cases i <;>
      simp only [triNormal0, triNormal1, triNormal2, dot2, triTangent, triEdge,
        triVert, sub2] <;>
      norm_num
  · intro i j
    fin_cases i <;> fin_cases j <;>
      simp only [triNormal0, triNormal1, triNormal2, triSign, triFacetVert,
        triOffVert, triEdge, triVert, dot2, sub2] <;>
      norm_num <;> positivity
  · intro i
    fin_cases i <;>
      simp only [tetNormal0, tetNormal1, tetNormal2, tetNormal3, dot3] <;>
      field_simp <;> nlinarith
  · intro i
    fin_cases i <;>
      constructor <;>
      simp only [tetNormal0, tetNormal1, tetNormal2, tetNormal3, dot3,
        tetTangent1, tetTangent2, tetFace, tetVert, sub3] <;>
      norm_num <;> field_simp <;> ring
  · intro i j
    fin_cases i <;> fin_cases j <;>
      norm_num [tetSign, tetNormal0, tetNormal1, tetNormal2, tetNormal3,
        tetFacetVert, tetOffVert, tetFace, tetVert, dot3, sub3] <;>
      first
        | positivity
        | exact div_neg_of_neg_of_pos (by norm_num) sqrt_three_pos
        | nlinarith [inv_pos.mpr sqrt_three_pos]

/-- Witness for C2 (amended): the unit-length fact at triangle facet 0,
read off the main theorem. -/
theorem computeNormal_ufc_overrides_spec_witness :
    dot2 (triComputeNormal (0 : Fin 3).val) (triComputeNormal (0 : Fin 3).val)
      = 1 :=
  computeNormal_ufc_overrides_spec.1 0

/-! ## TensorProductCell geometric queries (reference_element.py lines 909-1011)

`TensorProductCell` delegates `volume`, `contains_point` and
`distance_to_point_l1` to its factor cells, splitting the point into
contiguous per-factor slices whose boundaries are the cumulative factor
spatial dimensions (`_split_slices`).  A factor cell is abstracted by
exactly the methods the product delegates to. -/

/-- A factor cell of a `TensorProductCell`: its spatial dimension, its
`volume()`, its `distance_to_point_l1` and its `contains_point`. -/
structure FactorCell where
  sdim : ℕ
  vol : ℚ
  dist : List ℚ → ℚ
  containsPt : List ℚ → ℚ → Bool

/-- `TensorProductCell._split_slices(lengths)`: `delimiter[0] = 0`,
`delimiter[i+1] = delimiter[i] + lengths[i]`, slice `i` running from
`delimiter[i]` to `delimiter[i+1]`; here built with the running
offset `start` and returned as `(start, stop)` pairs. -/
def splitSlices (start : ℕ) : List ℕ → List (ℕ × ℕ)
  | [] => []
  | l :: ls => (start, start + l) :: splitSlices (start + l) ls

/-- `point[s]` for a slice `s = (start, stop)`. -/
def sliceList (point : List ℚ) (s : ℕ × ℕ) : List ℚ :=
  (point.drop s.1).take (s.2 - s.1)

/-- The per-factor point slices
`[point[s] for s in point_slices]` with
`point_slices = _split_slices(subcell_dimensions)`. -/
def subcellPoints (cells : List FactorCell) (point : List ℚ) : List (List ℚ) :=
  (splitSlices 0 (cells.map (fun c => c.sdim))).map (sliceList point)

/-- `TensorProductCell.volume`: the product of the factor volumes. -/
def tpcVolume (cells : List FactorCell) : ℚ :=
  (cells.map (fun c => c.vol)).prod

/-- `TensorProductCell.distance_to_point_l1`: the sum of the factor
distances on the per-factor point slices. -/
def tpcDistanceToPointL1 (cells : List FactorCell) (point : List ℚ) : ℚ :=
  ((cells.zip (subcellPoints cells point)).map (fun cp => cp.1.dist cp.2)).sum

/-- `TensorProductCell.contains_point`: the `reduce(operator.and_, ...,
True)` of the factor `contains_point` results with the same epsilon. -/
def tpcContainsPoint (cells : List FactorCell) (point : List ℚ) (eps : ℚ) : Bool :=
  ((cells.zip (subcellPoints cells point)).map
      (fun cp => cp.1.containsPt cp.2 eps)).foldl (fun a b => a && b) true

theorem splitSlices_slice_join (pre : List ℚ) (ps : List (List ℚ)) :
    (splitSlices pre.length (ps.map List.length)).map
        (sliceList (pre ++ ps.flatten)) = ps := by
  induction ps generalizing pre with
  | nil => rfl
  | cons p ps ih =>
      simp only [List.map_cons, splitSlices, List.flatten_cons]
      have hdrop : (pre ++ (p ++ ps.flatten)).drop pre.length = p ++ ps.flatten := by
        rw [List.drop_left]
      have hhead : sliceList (pre ++ (p ++ ps.flatten)) (pre.length, pre.length + p.length) = p := by
        unfold sliceList
        simp only [hdrop]
        have : pre.length + p.length - pre.length = p.length := by omega
        rw [this, List.take_left]
      have htail := ih (pre ++ p)
      rw [List.length_append] at htail
      rw [List.append_assoc] at htail
      exact List.cons_eq_cons.mpr ⟨hhead, htail⟩

theorem foldl_and_eq_all (l : List Bool) : l.foldl (fun a b => a && b) true = l.all id := by
  have key : ∀ (l : List Bool) (b : Bool),
      l.foldl (fun a b => a && b) b = (b && l.all id) := by
    intro l
    induction l with
    | nil => intro b; simp
    | cons a l ih =>
        intro b
        simp only [List.foldl_cons, List.all_cons, ih, id]
        rw [Bool.and_assoc]
  rw [key l true, Bool.true_and]

theorem all_map_id {α : Type} (l : List α) (f : α → Bool) :
    (l.map f).all id = l.all f := by
  induction l with
  | nil => rfl
  | cons a l ih => simp only [List.map_cons, List.all_cons, ih, id]

/-- C5: for every `TensorProductCell` (a list of factor cells) and
every point whose length equals the sum of the factor spatial
dimensions (given as the concatenation of per-factor points of matching
lengths), `volume()` is the product of the factor volumes,
`distance_to_point_l1` is the sum of the factor distances on the
corresponding contiguous coordinate slices, and
`contains_point(point, eps)` is the conjunction of the factor
`contains_point` results with the same epsilon. -/
theorem tensorProductCell_compositional
    (cells : List FactorCell) (ps : List (List ℚ)) (eps : ℚ)
    (hlen : ps.map List.length = cells.map (fun c => c.sdim)) :
    tpcVolume cells = (cells.map (fun c => c.vol)).prod
    ∧ tpcDistanceToPointL1 cells ps.flatten
        = ((cells.zip ps).map (fun cp => cp.1.dist cp.2)).sum
    ∧ tpcContainsPoint cells ps.flatten eps
        = (cells.zip ps).all (fun cp => cp.1.containsPt cp.2 eps) := by
  have hsub : subcellPoints cells ps.flatten = ps := by
    unfold subcellPoints
    rw [← hlen]
    have := splitSlices_slice_join [] ps
    simpa using this
  refine ⟨rfl, ?_, ?_⟩
  · unfold tpcDistanceToPointL1
    rw [hsub]
  · unfold tpcContainsPoint
    rw [hsub, foldl_and_eq_all, all_map_id]

/-- A sample 1-dimensional factor cell for the C5 witness. -/
def sampleCellA : FactorCell :=
  ⟨1, 2, fun p => p.sum, fun p eps => decide (p.sum ≤ eps)⟩

/-- A sample 2-dimensional factor cell for the C5 witness. -/
def sampleCellB : FactorCell :=
  ⟨2, 3, fun p => p.headD 0, fun p eps => decide (p.headD 0 ≤ eps)⟩

/-- Witness for C5 at a concrete two-factor product and point. -/
theorem tensorProductCell_compositional_witness :
    tpcVolume [sampleCellA, sampleCellB]
        = ([sampleCellA, sampleCellB].map (fun c => c.vol)).prod
    ∧ tpcDistanceToPointL1 [sampleCellA, sampleCellB] [[(1 : ℚ)], [2, 3]].flatten
        = (([sampleCellA, sampleCellB].zip [[(1 : ℚ)], [2, 3]]).map
            (fun cp => cp.1.dist cp.2)).sum
    ∧ tpcContainsPoint [sampleCellA, sampleCellB] [[(1 : ℚ)], [2, 3]].flatten 0
        = ([sampleCellA, sampleCellB].zip [[(1 : ℚ)], [2, 3]]).all
            (fun cp => cp.1.containsPt cp.2 0) :=
  tensorProductCell_compositional [sampleCellA, sampleCellB] [[(1 : ℚ)], [2, 3]] 0 rfl

/-! ## compute_unflattening_map (reference_element.py lines 1423-1435)

The tensor-product topology dict maps dimension tuples to entity
dicts; in `TensorProductCell.__init__` each entity dict is
`dict(enumerate(...))`, so its keys are exactly `0, ..., n-1` and a
topology item is modelled as the dimension tuple together with its
entity count `n`.  `compute_unflattening_map` iterates
`sorted(topology_dict.items())` and, per entity, draws the next flat
index from `counter[flat_dim]`; the embedding takes the item list `td`
already in that sorted order and realises `counter[flat_dim]` as the
number of already-emitted entries with that flat dimension. -/

/-- An entry of the unflattening map:
`((flat_dim, flat_entity), (dim_tuple, entity))`. -/
abbrev UnflatEntry := (ℕ × ℕ) × (List ℕ × ℕ)

/-- `tuple_sum(dim)` for a (non-nested) dimension tuple. -/
def tupleSum (d : List ℕ) : ℕ := d.sum

/-- The current value of `counter[fd]`: how many entries with flat
dimension `fd` have been emitted so far. -/
def countFd (acc : List UnflatEntry) (fd : ℕ) : ℕ :=
  (acc.filter (fun p => p.1.1 == fd)).length

/-- The entries emitted for one topology item `(dim, n)`: entity `e`
receives flat index `offset + e`. -/
def unflatGroup (fd offset : ℕ) (dim : List ℕ) (n : ℕ) : List UnflatEntry :=
  (List.range n).map (fun e => ((fd, offset + e), (dim, e)))

/-- One iteration of the `compute_unflattening_map` loop body over a
topology item. -/
def unflatStep (acc : List UnflatEntry) (dn : List ℕ × ℕ) : List UnflatEntry :=
  acc ++ unflatGroup (tupleSum dn.1) (countFd acc (tupleSum dn.1)) dn.1 dn.2

/-- Shallow embedding of `compute_unflattening_map` over the sorted
item list of a tensor-product topology dict. -/
def computeUnflatteningMap (td : List (List ℕ × ℕ)) : List UnflatEntry :=
  td.foldl unflatStep []

/-- The number of flat entities of summed dimension `fd` that
`flatten_entities` gives the flattened topology: the total entity
count over all dimension tuples with that sum. -/
def flatCount (td : List (List ℕ × ℕ)) (fd : ℕ) : ℕ :=
  ((td.filter (fun dn => tupleSum dn.1 == fd)).map (fun dn => dn.2)).sum

/-- Python tuple `<` on dimension tuples (lexicographic). -/
def lexLt : List ℕ → List ℕ → Bool
  | _, [] => false
  | [], _ :: _ => true
  | a :: as, b :: bs => decide (a < b) || (a == b && lexLt as bs)

theorem unflatGroup_map_fst (fd off : ℕ) (dim : List ℕ) (n : ℕ) :
    (unflatGroup fd off dim n).map Prod.fst
      = (List.range' off n).map (fun i => (fd, i)) := by
  unfold unflatGroup
  rw [List.map_map, List.range'_eq_map_range, List.map_map]
  rfl

theorem unflatGroup_map_snd (fd off : ℕ) (dim : List ℕ) (n : ℕ) :
    (unflatGroup fd off dim n).map Prod.snd
      = (List.range n).map (fun e => (dim, e)) := by
  unfold unflatGroup
  rw [List.map_map]
  rfl

theorem filter_keys_group_self (fd off : ℕ) (dim : List ℕ) (n : ℕ) :
    (((unflatGroup fd off dim n).map Prod.fst).filter (fun k => k.1 == fd))
      = (List.range' off n).map (fun i => (fd, i)) := by
  rw [unflatGroup_map_fst]
  apply List.filter_eq_self.mpr
  intro a ha
  rcases List.mem_map.mp ha with ⟨i, _, rfl⟩
  simp

theorem filter_keys_group_ne (fd fd2 off : ℕ) (dim : List ℕ) (n : ℕ)
    (h : fd ≠ fd2) :
    (((unflatGroup fd off dim n).map Prod.fst).filter (fun k => k.1 == fd2))
      = [] := by
  rw [unflatGroup_map_fst]
  apply List.filter_eq_nil_iff.mpr
  intro a ha
  rcases List.mem_map.mp ha with ⟨i, _, rfl⟩
  simp [h]

theorem countFd_eq_filter_keys (l : List UnflatEntry) (fd : ℕ) :
    countFd l fd = ((l.map Prod.fst).filter (fun k => k.1 == fd)).length := by
  unfold countFd
  rw [← List.countP_eq_length_filter, ← List.countP_eq_length_filter,
    List.countP_map]
  rfl

theorem countFd_append (l1 l2 : List UnflatEntry) (fd : ℕ) :
    countFd (l1 ++ l2) fd = countFd l1 fd + countFd l2 fd := by
  unfold countFd
  rw [List.filter_append, List.length_append]

theorem countFd_group_self (fd off : ℕ) (dim : List ℕ) (n : ℕ) :
    countFd (unflatGroup fd off dim n) fd = n := by
  rw [countFd_eq_filter_keys, filter_keys_group_self, List.length_map,
    List.length_range']

theorem countFd_group_ne (fd fd2 off : ℕ) (dim : List ℕ) (n : ℕ)
    (h : fd ≠ fd2) :
    countFd (unflatGroup fd off dim n) fd2 = 0 := by
  rw [countFd_eq_filter_keys, filter_keys_group_ne fd fd2 off dim n h]
  rfl

theorem flatCount_cons (dn : List ℕ × ℕ) (rest : List (List ℕ × ℕ)) (fd : ℕ) :
    flatCount (dn :: rest) fd
      = (if tupleSum dn.1 = fd then dn.2 else 0) + flatCount rest fd := by
  unfold flatCount
  by_cases h : tupleSum dn.1 = fd
  · simp [List.filter_cons, h]
  · simp [List.filter_cons, h]

theorem unflat_foldl_keys_filter (td : List (List ℕ × ℕ)) :
    ∀ (acc : List UnflatEntry) (fd : ℕ),
      (((td.foldl unflatStep acc).map Prod.fst).filter (fun k => k.1 == fd))
        = ((acc.map Prod.fst).filter (fun k => k.1 == fd))
          ++ (List.range' (countFd acc fd) (flatCount td fd)).map (fun i => (fd, i)) := by
  induction td with
  | nil =>
      intro acc fd
      simp [flatCount]
  | cons dn rest ih =>
      intro acc fd
      rw [List.foldl_cons, ih (unflatStep acc dn) fd, flatCount_cons]
      unfold unflatStep
      by_cases h : tupleSum dn.1 = fd
      · rw [h, List.map_append, List.filter_append, filter_keys_group_self,
          countFd_append, countFd_group_self, if_pos rfl, List.append_assoc]
        congr 1
        rw [← List.map_append, List.range'_append_1,
          Nat.add_comm (flatCount rest fd) dn.2]
      · rw [List.map_append, List.filter_append,
          filter_keys_group_ne (tupleSum dn.1) fd _ _ _ h, List.append_nil,
          countFd_append, countFd_group_ne (tupleSum dn.1) fd _ _ _ h,
          if_neg h, Nat.add_zero, Nat.zero_add]

theorem unflat_foldl_values (td : List (List ℕ × ℕ)) :
    ∀ acc : List UnflatEntry,
      (td.foldl unflatStep acc).map Prod.snd
        = acc.map Prod.snd
          ++ td.flatMap (fun dn => (List.range dn.2).map (fun e => (dn.1, e))) := by
  induction td with
  | nil =>
      intro acc
      simp
  | cons dn rest ih =>
      intro acc
      rw [List.foldl_cons, ih (unflatStep acc dn), List.flatMap_cons]
      unfold unflatStep
      rw [List.map_append, unflatGroup_map_snd, List.append_assoc]

theorem unflat_foldl_key_dim (td : List (List ℕ × ℕ)) :
    ∀ acc : List UnflatEntry,
      (∀ p ∈ acc, p.1.1 = tupleSum p.2.1) →
      ∀ p ∈ td.foldl unflatStep acc, p.1.1 = tupleSum p.2.1 := by
  induction td with
  | nil => intro acc h; exact h
  | cons dn rest ih =>
      intro acc h
      rw [List.foldl_cons]
      apply ih
      intro p hp
      rcases List.mem_append.mp hp with h1 | h2
      · exact h p h1
      · unfold unflatGroup at h2
        rcases List.mem_map.mp h2 with ⟨e, _, rfl⟩
        rfl

theorem range'_zero_eq_range (n : ℕ) : List.range' 0 n = List.range n := by
  rw [List.range'_eq_map_range]
  simp

/-- C4: for every tensor-product topology dict (its items `td` listed
in the sorted dimension-tuple order that `sorted(topology_dict.items())`
produces, with distinct dimension keys), `compute_unflattening_map` is
a total bijection between flattened `(flat_dim, flat_index)` pairs and
tensor `(dim_tuple, entity)` pairs: its values enumerate the tensor
entities in sorted dimension-tuple order, for each summed dimension the
flat indices assigned are exactly `0, ..., flatCount - 1` in sequence
(the entity numbering `flatten_entities` gives the flattened topology),
keys and values are each free of duplicates, every key carries the
summed dimension of its value, every tensor entity is mapped by some
flat pair, and every flat entity maps to some tensor entity. -/
theorem computeUnflatteningMap_bijection
    (td : List (List ℕ × ℕ))
    (hkeys : (td.map Prod.fst).Nodup)
    (hsorted : td.Chain' (fun x y => lexLt x.1 y.1 = true)) :
    ((computeUnflatteningMap td).map Prod.snd
        = td.flatMap (fun dn => (List.range dn.2).map (fun e => (dn.1, e))))
    ∧ (∀ fd : ℕ,
        (((computeUnflatteningMap td).map Prod.fst).filter (fun k => k.1 == fd))
          = (List.range (flatCount td fd)).map (fun i => (fd, i)))
    ∧ ((computeUnflatteningMap td).map Prod.fst).Nodup
    ∧ ((computeUnflatteningMap td).map Prod.snd).Nodup
    ∧ (∀ p ∈ computeUnflatteningMap td, p.1.1 = tupleSum p.2.1)
    ∧ (∀ dn ∈ td, ∀ e, e < dn.2 →
        ∃ fi, ((tupleSum dn.1, fi), (dn.1, e)) ∈ computeUnflatteningMap td)
    ∧ (∀ fd fi, fi < flatCount td fd →
        ∃ v, ((fd, fi), v) ∈ computeUnflatteningMap td) := by
  have hvals : (computeUnflatteningMap td).map Prod.snd
      = td.flatMap (fun dn => (List.range dn.2).map (fun e => (dn.1, e))) := by
    have h := unflat_foldl_values td []
    simpa [computeUnflatteningMap] using h
  have hkeysf : ∀ fd : ℕ,
      (((computeUnflatteningMap td).map Prod.fst).filter (fun k => k.1 == fd))
        = (List.range (flatCount td fd)).map (fun i => (fd, i)) := by
    intro fd
    have h := unflat_foldl_keys_filter td [] fd
    simp only [computeUnflatteningMap] at h ⊢
    rw [h]
    simp [countFd, range'_zero_eq_range]
  have hdim : ∀ p ∈ computeUnflatteningMap td, p.1.1 = tupleSum p.2.1 :=
    unflat_foldl_key_dim td [] (by intro p hp; cases hp)
  have hnodupK : ((computeUnflatteningMap td).map Prod.fst).Nodup := by
    rw [List.nodup_iff_sublist]
    rintro ⟨fd, i⟩ hdup
    have hsub : List.Sublist [(fd, i), (fd, i)]
        (((computeUnflatteningMap td).map Prod.fst).filter
          (fun k => k.1 == fd)) := by
      have h := hdup.filter (fun k : ℕ × ℕ => k.1 == fd)
      simpa using h
    rw [hkeysf fd] at hsub
    have hnd : ((List.range (flatCount td fd)).map (fun j => (fd, j))).Nodup := by
      apply List.Nodup.map
      · intro a b hab
        simpa using congrArg Prod.snd hab
      · exact List.nodup_range _
    exact (List.nodup_iff_sublist.mp hnd (fd, i)) hsub
  have hnodupV : ((computeUnflatteningMap td).map Prod.snd).Nodup := by
    rw [hvals]
    apply List.nodup_flatMap.mpr
    constructor
    · intro dn _
      apply List.Nodup.map
      · intro a b hab
        simpa using congrArg Prod.snd hab
      · exact List.nodup_range _
    · have hpw : td.Pairwise (fun a b => a.1 ≠ b.1) := by
        have h2 : (td.map Prod.fst).Pairwise (fun a b => a ≠ b) := hkeys
        rw [List.pairwise_map] at h2
        exact h2
      apply hpw.imp
      intro a b hab
      intro x hxa hxb
      rcases List.mem_map.mp hxa with ⟨e1, _, rfl⟩
      rcases List.mem_map.mp hxb with ⟨e2, _, h2⟩
      exact hab (by simpa using (congrArg Prod.fst h2).symm)
  refine ⟨hvals, hkeysf, hnodupK, hnodupV, hdim, ?_, ?_⟩
  · intro dn hdn e he
    have hmem : (dn.1, e) ∈ (computeUnflatteningMap td).map Prod.snd := by
      rw [hvals]
      apply List.mem_flatMap.mpr
      exact ⟨dn, hdn, List.mem_map.mpr ⟨e, List.mem_range.mpr he, rfl⟩⟩
    rcases List.mem_map.mp hmem with ⟨p, hp, hpv⟩
    obtain ⟨⟨k1, k2⟩, v⟩ := p
    have hfd := hdim _ hp
    simp only at hpv hfd
    subst hpv
    simp only at hfd
    rw [hfd] at hp
    exact ⟨k2, hp⟩
  · intro fd fi hfi
    have hmem : (fd, fi) ∈ ((computeUnflatteningMap td).map Prod.fst).filter
        (fun k => k.1 == fd) := by
      rw [hkeysf fd]
      exact List.mem_map.mpr ⟨fi, List.mem_range.mpr hfi, rfl⟩
    have hmem2 : (fd, fi) ∈ (computeUnflatteningMap td).map Prod.fst :=
      List.mem_of_mem_filter hmem
    rcases List.mem_map.mp hmem2 with ⟨p, hp, hpk⟩
    refine ⟨p.2, ?_⟩
    rw [← hpk]
    exact hp

/-- The sorted topology items of the UFC quadrilateral
(`TensorProductCell(UFCInterval(), UFCInterval())`): dimension tuples
`(0,0), (0,1), (1,0), (1,1)` with 4, 2, 2 and 1 entities. -/
def quadTopItems : List (List ℕ × ℕ) :=
  [([0, 0], 4), ([0, 1], 2), ([1, 0], 2), ([1, 1], 1)]

/-- Witness for C4 at the quadrilateral topology. -/
theorem computeUnflatteningMap_bijection_witness :
    ((computeUnflatteningMap quadTopItems).map Prod.fst).Nodup
    ∧ ((computeUnflatteningMap quadTopItems).map Prod.snd).Nodup :=
  ⟨(computeUnflatteningMap_bijection quadTopItems (by decide)
      (by simp [quadTopItems, List.chain'_cons, lexLt])).2.2.1,
   (computeUnflatteningMap_bijection quadTopItems (by decide)
      (by simp [quadTopItems, List.chain'_cons, lexLt])).2.2.2.1⟩

/-! ## The dense linear solver behind make_affine_mapping

`make_affine_mapping` (reference_element.py lines 1245-1278) assembles
a dense square system and calls `numpy.linalg.solve`, which performs
LU elimination with partial pivoting and raises `LinAlgError` on a
singular matrix.  The external solver is modelled by exact Gaussian
elimination with pivot search over the rationals: it returns `none`
exactly when elimination finds no usable pivot (the singular case). -/

/-- One row of a linear system: coefficients and right-hand side. -/
abbrev LinRow := List ℚ × ℚ

/-- Dot product of coefficient lists. -/
def dotL (a b : List ℚ) : ℚ := (List.zipWith (fun x y => x * y) a b).sum

/-- Find a row with a nonzero leading coefficient (the pivot) and
return it together with the remaining rows. -/
def findPivot : List LinRow → Option (LinRow × List LinRow)
  | [] => none
  | r :: rs =>
      if r.1.headD 0 ≠ 0 then some (r, rs)
      else match findPivot rs with
           | some (p, rest) => some (p, r :: rest)
           | none => none

/-- Eliminate the leading column of row `r` against the normalized
pivot row and drop that column. -/
def elimStep (prow : LinRow) (r : LinRow) : LinRow :=
  (List.zipWith (fun a q => a - r.1.headD 0 * q) r.1.tail
     ((prow.1.tail).map (fun c => c / prow.1.headD 0)),
   r.2 - r.1.headD 0 * (prow.2 / prow.1.headD 0))

/-- Back-substitute the solution of the reduced system into the
normalized pivot row. -/
def backSub (prow : LinRow) (sol : List ℚ) : ℚ :=
  prow.2 / prow.1.headD 0
    - dotL ((prow.1.tail).map (fun c => c / prow.1.headD 0)) sol

/-- Exact Gaussian elimination on a square `n × n` system, modelling
`numpy.linalg.solve`: `none` when no pivot exists (singular matrix). -/
def gaussSolve : ℕ → List LinRow → Option (List ℚ)
  | 0, _ => some []
  | n + 1, rows =>
      match findPivot rows with
      | none => none
      | some (prow, rest) =>
          match gaussSolve n (rest.map (elimStep prow)) with
          | none => none
          | some sol => some (backSub prow sol :: sol)

theorem dotL_nil_left (b : List ℚ) : dotL [] b = 0 := rfl

theorem dotL_nil_right (a : List ℚ) : dotL a [] = 0 := by
  cases a <;> rfl

theorem dotL_cons_cons (a b : ℚ) (as bs : List ℚ) :
    dotL (a :: as) (b :: bs) = a * b + dotL as bs := rfl

theorem dotL_map_div (t : List ℚ) (h : ℚ) (hh : h ≠ 0) :
    ∀ s : List ℚ, h * dotL (t.map (fun c => c / h)) s = dotL t s := by
  induction t with
  | nil => intro s; simp [dotL_nil_left]
  | cons c t ih =>
      intro s
      cases s with
      | nil => simp [dotL_nil_right]
      | cons y s =>
          rw [List.map_cons, dotL_cons_cons, dotL_cons_cons, mul_add, ih s]
          congr 1
          field_simp

theorem dotL_zipWith_elim (c : ℚ) :
    ∀ (cr pr s : List ℚ), cr.length = pr.length →
      dotL (List.zipWith (fun a q => a - c * q) cr pr) s
        = dotL cr s - c * dotL pr s := by
  intro cr
  induction cr with
  | nil =>
      intro pr s hlen
      cases pr with
      | nil => simp [dotL_nil_left]
      | cons q pr => simp at hlen
  | cons a cr ih =>
      intro pr s hlen
      cases pr with
      | nil => simp at hlen
      | cons q pr =>
          cases s with
          | nil => simp [dotL_nil_right]
          | cons y s =>
              have hl : cr.length = pr.length := by simpa using hlen
              rw [List.zipWith_cons_cons, dotL_cons_cons, dotL_cons_cons,
                dotL_cons_cons, ih pr s hl]
              ring

theorem findPivot_spec :
    ∀ (rows : List LinRow) (p : LinRow) (rest : List LinRow),
      findPivot rows = some (p, rest) →
      p.1.headD 0 ≠ 0
      ∧ p ∈ rows
      ∧ rest.length + 1 = rows.length
      ∧ (∀ r ∈ rows, r = p ∨ r ∈ rest)
      ∧ (∀ r ∈ rest, r ∈ rows) := by
  intro rows
  induction rows with
  | nil =>
      intro p rest h
      simp [findPivot] at h
  | cons r rs ih =>
      intro p rest h
      unfold findPivot at h
      by_cases hr : r.1.headD 0 ≠ 0
      · rw [if_pos hr] at h
        obtain ⟨rfl, rfl⟩ : r = p ∧ rs = rest := by
          injection h with h2
          exact ⟨congrArg Prod.fst h2, congrArg Prod.snd h2⟩
        refine ⟨hr, List.mem_cons_self _ _, rfl, ?_, ?_⟩
        · intro x hx
          rcases List.mem_cons.mp hx with rfl | hx
          · exact Or.inl rfl
          · exact Or.inr hx
        · intro x hx
          exact List.mem_cons_of_mem _ hx
      · rw [if_neg hr] at h
        cases hfp : findPivot rs with
        | none => rw [hfp] at h; cases h
        | some pr =>
            obtain ⟨p2, rest2⟩ := pr
            rw [hfp] at h
            obtain ⟨rfl, rfl⟩ : p2 = p ∧ r :: rest2 = rest := by
              injection h with h2
              exact ⟨congrArg Prod.fst h2, congrArg Prod.snd h2⟩
            obtain ⟨h0, hmem, hlen, hcov, hsub⟩ := ih p2 rest2 hfp
            refine ⟨h0, List.mem_cons_of_mem _ hmem, by simpa using hlen, ?_, ?_⟩
            · intro x hx
              rcases List.mem_cons.mp hx with rfl | hx
              · exact Or.inr (List.mem_cons_self _ _)
              · rcases hcov x hx with h1 | h1
                · exact Or.inl h1
                · exact Or.inr (List.mem_cons_of_mem _ h1)
            · intro x hx
              rcases List.mem_cons.mp hx with rfl | hx
              · exact List.mem_cons_self _ _
              · exact List.mem_cons_of_mem _ (hsub x hx)

theorem gaussSolve_correct :
    ∀ (n : ℕ) (rows : List LinRow),
      rows.length = n →
      (∀ r ∈ rows, r.1.length = n) →
      ∀ sol, gaussSolve n rows = some sol →
        sol.length = n ∧ ∀ r ∈ rows, dotL r.1 sol = r.2 := by
  intro n
  induction n with
  | zero =>
      intro rows hc _ sol hsol
      have hnil : rows = [] := List.length_eq_zero.mp hc
      subst hnil
      unfold gaussSolve at hsol
      injection hsol with h2
      subst h2
      exact ⟨rfl, by intro r hr; cases hr⟩
  | succ n ih =>
      intro rows hc hlen sol hsol
      unfold gaussSolve at hsol
      cases hfp : findPivot rows with
      | none => rw [hfp] at hsol; cases hsol
      | some pr =>
          obtain ⟨prow, rest⟩ := pr
          rw [hfp] at hsol
          dsimp only at hsol
          obtain ⟨hp0, hpmem, hrlen, hcov, hsub⟩ := findPivot_spec rows prow rest hfp
          cases hrec : gaussSolve n (rest.map (elimStep prow)) with
          | none => rw [hrec] at hsol; cases hsol
          | some sol2 =>
              rw [hrec] at hsol
              injection hsol with h2
              subst h2
              have hplen : prow.1.length = n + 1 := hlen prow hpmem
              obtain ⟨ph, pt, hpt⟩ : ∃ ph pt, prow.1 = ph :: pt := by
                cases hpl : prow.1 with
                | nil => rw [hpl] at hplen; simp at hplen
                | cons x xs => exact ⟨x, xs, rfl⟩
              have hphne : ph ≠ 0 := by
                rw [hpt] at hp0
                simpa using hp0
              have hptlen : pt.length = n := by
                have := hplen
                rw [hpt] at this
                simpa using this
              have hrest2len : (rest.map (elimStep prow)).length = n := by
                rw [List.length_map]
                omega
              have hrest2rows : ∀ r2 ∈ rest.map (elimStep prow), r2.1.length = n := by
                intro r2 hr2
                rcases List.mem_map.mp hr2 with ⟨r, hr, rfl⟩
                have hrl : r.1.length = n + 1 := hlen r (hsub r hr)
                unfold elimStep
                rw [List.length_zipWith, List.length_tail, List.length_map,
                  List.length_tail, hrl, hpt]
                simp [hptlen]
              obtain ⟨hsol2len, hsol2⟩ :=
                ih (rest.map (elimStep prow)) hrest2len hrest2rows sol2 hrec
              constructor
              · simpa using hsol2len
              · intro r hr
                rcases hcov r hr with rfl | hrrest
                · -- the pivot row itself
                  rw [hpt, dotL_cons_cons]
                  unfold backSub
                  rw [hpt]
                  simp only [List.headD_cons, List.tail_cons]
                  rw [mul_sub, ← mul_div_assoc, mul_div_cancel_left₀ _ hphne,
                    dotL_map_div pt ph hphne sol2]
                  ring
                · -- an eliminated row
                  have hr2 := hsol2 (elimStep prow r) (List.mem_map_of_mem _ hrrest)
                  have hrl : r.1.length = n + 1 := hlen r (hsub r hrrest)
                  obtain ⟨rh, rt, hrt⟩ : ∃ rh rt, r.1 = rh :: rt := by
                    cases hx : r.1 with
                    | nil => rw [hx] at hrl; simp at hrl
                    | cons x xs => exact ⟨x, xs, rfl⟩
                  have hrtlen : rt.length = n := by
                    have := hrl
                    rw [hrt] at this
                    simpa using this
                  unfold elimStep at hr2
                  rw [hrt, hpt] at hr2
                  simp only [List.headD_cons, List.tail_cons] at hr2
                  have hlen2 : rt.length = (pt.map (fun c => c / ph)).length := by
                    rw [List.length_map, hptlen, hrtlen]
                  rw [dotL_zipWith_elim rh rt (pt.map (fun c => c / ph)) sol2 hlen2] at hr2
                  rw [hrt, dotL_cons_cons]
                  unfold backSub
                  rw [hpt]
                  simp only [List.headD_cons, List.tail_cons]
                  have hdiv := dotL_map_div pt ph hphne sol2
                  nlinarith [hr2, hdiv]

/-! ## make_affine_mapping (reference_element.py lines 1245-1278)

The source takes point sequences `xs`, `ys`, sets
`dim_x = len(xs[0])`, `dim_y = len(ys[0])`, raises when
`len(xs) != len(ys)`, and otherwise assembles the square system of
size `dim_x * dim_y + dim_y`: row `i * dim_y + j` holds `xs[i]` in
columns `dim_x * j, ..., dim_x * j + dim_x - 1`, a `1.0` in column
`dim_x * dim_y + j`, and right-hand side `ys[i][j]`; all other entries
stay zero.  The solution is reshaped into `A` (`dim_y × dim_x`,
`sol[:dim_x * dim_y]`) and `b` (`sol[dim_x * dim_y:]`). -/

/-- Entry `(r, c)` of the matrix assembled by `make_affine_mapping`. -/
def affineMatEntry (xs : List (List ℚ)) (dimX dimY : ℕ) (r c : ℕ) : ℚ :=
  let i := r / dimY
  let j := r % dimY
  if i < xs.length then
    (if dimX * j ≤ c ∧ c < dimX * j + dimX then (xs.getD i []).getD (c - dimX * j) 0
     else if c = dimX * dimY + j then 1 else 0)
  else 0

/-- Entry `r` of the right-hand side assembled by
`make_affine_mapping`. -/
def affineRhsEntry (ys : List (List ℚ)) (dimY : ℕ) (r : ℕ) : ℚ :=
  let i := r / dimY
  let j := r % dimY
  if i < ys.length then (ys.getD i []).getD j 0 else 0

/-- The assembled rows `(coefficients, rhs)` of the affine system. -/
def affineSystem (xs ys : List (List ℚ)) : List LinRow :=
  let dimX := (xs.headD []).length
  let dimY := (ys.headD []).length
  let n := dimX * dimY + dimY
  ((List.range n).map (fun r =>
      (List.range n).map (fun c => affineMatEntry xs dimX dimY r c))).zip
    ((List.range n).map (fun r => affineRhsEntry ys dimY r))

/-- `numpy.reshape(sol[:dim_x * dim_y], (dim_y, dim_x))`. -/
def reshapeRows (sol : List ℚ) (dimX dimY : ℕ) : List (List ℚ) :=
  (List.range dimY).map (fun j => (sol.drop (j * dimX)).take dimX)

/-- Shallow embedding of `make_affine_mapping`: raise on point-count
mismatch, otherwise solve the assembled system and return `(A, b)`. -/
def makeAffineMapping (xs ys : List (List ℚ)) :
    Except String (List (List ℚ) × List ℚ) :=
  let dimX := (xs.headD []).length
  let dimY := (ys.headD []).length
  if xs.length ≠ ys.length then .error "point count mismatch"
  else
    match gaussSolve (dimX * dimY + dimY) (affineSystem xs ys) with
    | none => .error "singular system"
    | some sol => .ok (reshapeRows sol dimX dimY, sol.drop (dimX * dimY))

theorem affineSystem_length (xs ys : List (List ℚ)) :
    (affineSystem xs ys).length
      = (xs.headD []).length * (ys.headD []).length + (ys.headD []).length := by
  unfold affineSystem
  rw [List.length_zip, List.length_map, List.length_map, List.length_range]
  exact min_self _

theorem affineSystem_row_length (xs ys : List (List ℚ)) :
    ∀ r ∈ affineSystem xs ys,
      r.1.length
        = (xs.headD []).length * (ys.headD []).length + (ys.headD []).length := by
  intro r hr
  unfold affineSystem at hr
  rcases List.mem_zip hr with ⟨h1, _⟩
  rcases List.mem_map.mp h1 with ⟨k, _, hk⟩
  rw [← hk, List.length_map, List.length_range]

/-- C9: `make_affine_mapping(xs, ys)` fails with an exception for
every pair of point sequences whose lengths differ, so the caller
receives the error rather than an approximate result; when the lengths
are equal and the assembled linear system is non-singular (exact
elimination finds a pivot at every step and returns a solution), it
returns the matrix `A` and vector `b` reshaped from that solution
without error, and the solution exactly satisfies every equation of
the assembled system. -/
theorem makeAffineMapping_spec :
    (∀ xs ys : List (List ℚ), xs.length ≠ ys.length →
        makeAffineMapping xs ys = .error "point count mismatch")
    ∧ (∀ (xs ys : List (List ℚ)) (sol : List ℚ),
        xs.length = ys.length →
        gaussSolve ((xs.headD []).length * (ys.headD []).length
            + (ys.headD []).length) (affineSystem xs ys) = some sol →
        makeAffineMapping xs ys
          = .ok (reshapeRows sol (xs.headD []).length (ys.headD []).length,
                 sol.drop ((xs.headD []).length * (ys.headD []).length))
        ∧ ∀ r ∈ affineSystem xs ys, dotL r.1 sol = r.2) := by
  constructor
  · intro xs ys hne
    unfold makeAffineMapping
    rw [if_pos hne]
  · intro xs ys sol heq hsol
    constructor
    · unfold makeAffineMapping
      rw [if_neg (by omega), hsol]
    · exact (gaussSolve_correct _ (affineSystem xs ys)
        (affineSystem_length xs ys) (affineSystem_row_length xs ys) sol hsol).2

/-- Witness for C9: mismatched point counts raise, and the
one-dimensional identity configuration `xs = ys = [[0], [1]]` solves
without error to `A = [[1]]`, `b = [0]`. -/
theorem makeAffineMapping_spec_witness :
    makeAffineMapping [[(0 : ℚ)], [1], [2]] [[(0 : ℚ)], [1]]
        = .error "point count mismatch"
    ∧ (makeAffineMapping [[(0 : ℚ)], [1]] [[(0 : ℚ)], [1]]
          = .ok (reshapeRows [1, 0] 1 1, List.drop 1 [1, 0])
        ∧ ∀ r ∈ affineSystem [[(0 : ℚ)], [1]] [[(0 : ℚ)], [1]],
            dotL r.1 [1, 0] = r.2) :=
  ⟨makeAffineMapping_spec.1 [[(0 : ℚ)], [1], [2]] [[(0 : ℚ)], [1]] (by decide),
   makeAffineMapping_spec.2 [[(0 : ℚ)], [1]] [[(0 : ℚ)], [1]] [1, 0]
     (by decide)
     (by norm_num [gaussSolve, findPivot, elimStep, backSub, dotL,
           affineSystem, affineMatEntry, affineRhsEntry,
           List.range_succ])⟩

/-! ## volume (reference_element.py lines 1339-1360 and 427-430)

`Simplex.volume` calls `volume(self.get_vertices())`, which maps the
UFC reference simplex of dimension `len(verts) - 1` onto `verts` via
`make_affine_mapping` and returns `p / factorial(sd)`, where `p` is the
product of the singular values of `A` exceeding the `1e-10` tolerance.
For the square full-rank matrices `A` arising when a full-dimensional
UFC simplex is measured, that product equals `|det A|`, which is how
the embedding computes it. -/

/-- Laplace expansion of the determinant along the first row, with the
matrix size as structural fuel. -/
def detListAux : ℕ → List (List ℚ) → ℚ
  | _, [] => 1
  | 0, _ :: _ => 1
  | n + 1, r :: rows =>
      ((List.range r.length).map (fun j =>
        (-1 : ℚ) ^ j * r.getD j 0
          * detListAux n (rows.map (fun row => row.eraseIdx j)))).sum

/-- Determinant of a square rational matrix given as rows. -/
def detList (m : List (List ℚ)) : ℚ := detListAux m.length m

/-- The vertices of `ufc_simplex(dim)` (reference_element.py lines
1296-1308); a `RuntimeError` above dimension 3. -/
def ufcVertices : ℕ → Except String (List (List ℚ))
  | 0 => .ok [[]]
  | 1 => .ok [[0], [1]]
  | 2 => .ok [[0, 0], [1, 0], [0, 1]]
  | 3 => .ok [[0, 0, 0], [1, 0, 0], [0, 1, 0], [0, 0, 1]]
  | _ => .error "cannot create UFC simplex"

/-- Shallow embedding of `volume(verts)`: solve for the affine map
from the UFC simplex of dimension `len(verts) - 1` onto `verts` and
return `|det A| / factorial(sd)` (see the section comment on
`|det A|` standing in for the product of above-tolerance singular
values). -/
def simplexVolume (verts : List (List ℚ)) : Except String ℚ :=
  let sd := verts.length - 1
  match ufcVertices sd with
  | .error msg => .error msg
  | .ok ufcverts =>
      match makeAffineMapping ufcverts verts with
      | .error msg => .error msg
      | .ok (A, _b) => .ok (|detList A| / (Nat.factorial sd : ℚ))

set_option maxHeartbeats 2000000 in
/-- C6: `volume()` of the canonical unit UFC reference simplex of
dimension `d` equals `1/d!` for `d = 0, 1, 2, 3` (exactly, in the
rational embedding), computed by solving for the affine map from the
unit simplex onto the cell's own vertices — the identity map — and
taking the product of the nonzero singular values of its matrix
(`|det A| = 1`) divided by `d!`. -/
theorem ufcSimplex_volume_spec :
    simplexVolume [[]] = .ok 1
    ∧ simplexVolume [[(0 : ℚ)], [1]] = .ok 1
    ∧ simplexVolume [[(0 : ℚ), 0], [1, 0], [0, 1]] = .ok (1 / 2)
    ∧ simplexVolume [[(0 : ℚ), 0, 0], [1, 0, 0], [0, 1, 0], [0, 0, 1]]
        = .ok (1 / 6) := by
  refine ⟨?_, ?_, ?_, ?_⟩ <;>
    norm_num [simplexVolume, ufcVertices, makeAffineMapping, affineSystem,
      affineMatEntry, affineRhsEntry, gaussSolve, findPivot, elimStep,
      backSub, dotL, reshapeRows, detList, detListAux, List.eraseIdx,
      List.range_succ, Nat.factorial, abs_one]

/-! ## LagrangeDualSet on the UFC interval (lagrange.py lines 17-41)

`LagrangeDualSet.__init__` walks the topology dimension by dimension,
entity by entity, appending a `functional.PointEvaluation` for every
point of `ref_el.make_points(dim, entity, degree)` and recording the
contiguous dof range each entity receives from the running counter
`cur`.  On the UFC interval the topology is
`{0: {0: (0,), 1: (1,)}, 1: {0: (0, 1)}}`;
`make_points` returns the vertex for `dim = 0` and
`make_lattice(verts, degree, 1)` for `dim = 1`
(reference_element.py lines 411-425), whose points are indexed by
`multiindex_equal(2, degree, 1)` (lines 43-54). -/

/-- The integers `a, a+1, ..., b-1` (Python `range(a, b)` on ints). -/
def rangeInt (a b : ℤ) : List ℤ :=
  (List.range (b - a).toNat).map (fun k : ℕ => a + (k : ℤ))

/-- `multiindex_equal(d, isum, imin)`: all `d`-tuples with sum `isum`
and minimum at least `imin`, in generator order (loop tuples first,
the closing tuple `(imin, ..., imin, imax)` last, elements appended as
`a + (i,)`). -/
def multiindexEqual : ℕ → ℤ → ℤ → List (List ℤ)
  | 0, _, _ => []
  | d + 1, isum, imin =>
      let imax := isum - (d : ℤ) * imin
      if imax < imin then []
      else ((rangeInt imin imax).flatMap (fun i =>
              (multiindexEqual d (isum - i) imin).map (fun a => a ++ [i])))
           ++ [List.replicate d imin ++ [imax]]

/-- A dual-set functional; `LagrangeDualSet` constructs only
`functional.PointEvaluation`s. -/
inductive Node where
  | pointEval (pt : List ℚ)

/-- The lattice coordinate of a multi-index `alpha`.  Modelled from
the spec: `make_lattice`'s `dot(_recursive(D - 1, n, alpha, family), X)`
calls the external `recursivenodes` collaborator, which for the default
equispaced family returns the barycentric weights `alpha / n`, so the
point is `sum_i (alpha_i / n) * verts_i`. -/
def latticePoint (verts : List (List ℚ)) (n : ℕ) (alpha : List ℤ) : List ℚ :=
  (List.range (verts.headD []).length).map (fun j =>
    ((List.zip alpha verts).map
      (fun av => ((av.1 : ℚ) / (n : ℚ)) * (av.2.getD j 0))).sum)

/-- `make_lattice(verts, n, interior)` (reference_element.py lines
72-88): one point per multi-index of `multiindex_equal(len(verts), n,
interior)`. -/
def makeLattice (verts : List (List ℚ)) (n : ℕ) (interior : ℤ) :
    List (List ℚ) :=
  (multiindexEqual verts.length (n : ℤ) interior).map (latticePoint verts n)

/-- Vertices of the UFC interval: `(0.0,)` and `(1.0,)`. -/
def intervalVerts : List (List ℚ) := [[0], [1]]

/-- `Simplex.make_points(dim, entity_id, order)` on the UFC interval:
the vertex for `dim = 0`, the interior lattice
(`make_lattice(verts, order, 1)`) for `dim = 1`. -/
def makePointsInterval (dim entity order : ℕ) : List (List ℚ) :=
  if dim = 0 then [intervalVerts.getD entity []]
  else makeLattice intervalVerts order 1

/-- The node list of `LagrangeDualSet(UFCInterval(), degree)`: the
loop over dimensions `0, 1` and their sorted entities, unrolled for
the interval topology. -/
def lagrangeIntervalNodes (degree : ℕ) : List Node :=
  ((makePointsInterval 0 0 degree).map Node.pointEval)
    ++ ((makePointsInterval 0 1 degree).map Node.pointEval)
    ++ ((makePointsInterval 1 0 degree).map Node.pointEval)

/-- The `entity_ids` of `LagrangeDualSet(UFCInterval(), degree)`:
`entity_ids[dim][entity]` is the contiguous dof range handed out by
the running counter `cur`. -/
def lagrangeIntervalEntityIds (degree : ℕ) : List (List (List ℕ)) :=
  let n0 := (makePointsInterval 0 0 degree).length
  let n1 := (makePointsInterval 0 1 degree).length
  let n2 := (makePointsInterval 1 0 degree).length
  [[List.range' 0 n0, List.range' n0 n1], [List.range' (n0 + n1) n2]]

theorem multiindexEqual_one (s : ℤ) (h : 1 ≤ s) :
    multiindexEqual 1 s 1 = [[s]] := by
  unfold multiindexEqual
  rw [if_neg (by push_cast; omega)]
  simp [multiindexEqual]

theorem mem_rangeInt {a b i : ℤ} (h : i ∈ rangeInt a b) : a ≤ i ∧ i < b := by
  unfold rangeInt at h
  rcases List.mem_map.mp h with ⟨m, hm, rfl⟩
  have hlt := List.mem_range.mp hm
  constructor <;> omega

theorem length_rangeInt (a b : ℤ) : (rangeInt a b).length = (b - a).toNat := by
  unfold rangeInt
  rw [List.length_map, List.length_range]

theorem sum_map_one {α : Type} (l : List α) :
    (l.map (fun _ => (1 : ℕ))).sum = l.length := by
  induction l with
  | nil => rfl
  | cons a l ih => simp [ih, Nat.add_comm]

theorem length_multiindexEqual_two (k : ℕ) (hk : 1 ≤ k) :
    (multiindexEqual 2 (k : ℤ) 1).length = k - 1 := by
  unfold multiindexEqual
  by_cases h2 : (k : ℤ) - (1 : ℕ) * 1 < 1
  · rw [if_pos h2]
    have hk1 : k = 1 := by push_cast at h2; omega
    subst hk1
    rfl
  · rw [if_neg h2]
    rw [List.length_append, List.length_flatMap]
    simp only [Function.comp_def]
    have hone : ∀ i ∈ rangeInt 1 ((k : ℤ) - (1 : ℕ) * 1),
        (List.map (fun a => a ++ [i]) (multiindexEqual 1 ((k : ℤ) - i) 1)).length
          = 1 := by
      intro i hi
      obtain ⟨hlo, hhi⟩ := mem_rangeInt hi
      have hs : 1 ≤ (k : ℤ) - i := by
        push_cast at h2 hhi ⊢
        omega
      rw [List.length_map, multiindexEqual_one _ hs]
      rfl
    rw [List.map_congr_left hone, sum_map_one, length_rangeInt,
      List.length_singleton]
    push_cast
    omega

theorem makePointsInterval_interior_length (k : ℕ) (hk : 1 ≤ k) :
    (makePointsInterval 1 0 k).length = k - 1 := by
  unfold makePointsInterval makeLattice
  rw [if_neg (by omega), List.length_map]
  exact length_multiindexEqual_two k hk

/-- C7: for a Lagrange element of degree `k >= 1` on the UFC interval,
the dual set has exactly `k + 1` nodes, all point evaluations; its
`entity_ids` give each of the two vertices exactly one dof, give the
interior (dimension-1) entity the `k - 1` remaining dofs, and together
partition `{0, ..., k}` with each dof index appearing exactly once
(their concatenation is exactly `range(k + 1)`). -/
theorem lagrangeInterval_dual_spec (degree : ℕ) (hdeg : 1 ≤ degree) :
    (lagrangeIntervalNodes degree).length = degree + 1
    ∧ (∀ nd ∈ lagrangeIntervalNodes degree, ∃ pt, nd = Node.pointEval pt)
    ∧ lagrangeIntervalEntityIds degree
        = [[[0], [1]], [List.range' 2 (degree - 1)]]
    ∧ [0] ++ [1] ++ List.range' 2 (degree - 1) = List.range (degree + 1) := by
  have hn0 : (makePointsInterval 0 0 degree).length = 1 := rfl
  have hn1 : (makePointsInterval 0 1 degree).length = 1 := rfl
  have hn2 := makePointsInterval_interior_length degree hdeg
  refine ⟨?_, ?_, ?_, ?_⟩
  · unfold lagrangeIntervalNodes
    rw [List.length_append, List.length_append, List.length_map,
      List.length_map, List.length_map, hn0, hn1, hn2]
    omega
  · intro nd hnd
    unfold lagrangeIntervalNodes at hnd
    rcases List.mem_append.mp hnd with h | h
    · rcases List.mem_append.mp h with h | h <;>
        · rcases List.mem_map.mp h with ⟨pt, _, rfl⟩
          exact ⟨pt, rfl⟩
    · rcases List.mem_map.mp h with ⟨pt, _, rfl⟩
      exact ⟨pt, rfl⟩
  · unfold lagrangeIntervalEntityIds
    rw [hn0, hn1, hn2]
    rfl
  · have h1 : [(0 : ℕ)] = List.range' 0 1 := rfl
    have h2 : [(1 : ℕ)] = List.range' 1 1 := rfl
    rw [h1, h2, List.range'_append_1]
    have h3 : List.range' 0 (1 + 1) ++ List.range' (0 + (1 + 1)) (degree - 1)
        = List.range' 0 (degree - 1 + (1 + 1)) := List.range'_append_1 0 (1 + 1) (degree - 1)
    have h4 : degree - 1 + (1 + 1) = degree + 1 := by omega
    rw [show (2 : ℕ) = 0 + (1 + 1) from rfl, h3, h4, range'_zero_eq_range]

/-- Witness for C7 at degree 3. -/
theorem lagrangeInterval_dual_spec_witness :
    (lagrangeIntervalNodes 3).length = 3 + 1
    ∧ (∀ nd ∈ lagrangeIntervalNodes 3, ∃ pt, nd = Node.pointEval pt)
    ∧ lagrangeIntervalEntityIds 3 = [[[0], [1]], [List.range' 2 (3 - 1)]]
    ∧ [0] ++ [1] ++ List.range' 2 (3 - 1) = List.range (3 + 1) :=
  lagrangeInterval_dual_spec 3 (by decide)

/-! ## BrezziDouglasMarini degree guard (brezzi_douglas_marini.py lines 111-123)

`BrezziDouglasMarini.__init__` first calls
`check_format_variant(variant, degree)` and then raises
`Exception("BDM_k elements only valid for k >= 1")` when `degree < 1`;
only afterwards does it build the polynomial set, the BDM dual set and
the Ciarlet element. -/

/-- Modelled from the spec: `check_format_variant(variant, degree)`
lives in `FIAT/check_format_variant.py`, which is not under `src/`.
Per the spec it parses the variant string — `None` defaults to the
point variant, `"integral"` (and `"integral(q)"`, whose extra
quadrature degree only changes the interpolant degree and is omitted
here) selects integral moments, anything else is a configuration
error — and it never inspects the degree bound or the cell. -/
def checkFormatVariant (variant : Option String) (degree : ℤ) :
    Except String (String × ℤ) :=
  match variant with
  | none => .ok ("point", degree)
  | some "point" => .ok ("point", degree)
  | some "integral" => .ok ("integral", degree)
  | some _ => .error "Invalid format variant"

/-- The guarded part of `BrezziDouglasMarini.__init__`: parse the
variant, then reject `degree < 1`; the remaining construction
(polynomial set, BDM dual set, Ciarlet assembly) lies outside the
embedded core and is represented by a success token carrying the
constructor arguments. -/
def brezziDouglasMarini {Cell : Type} (refEl : Cell) (degree : ℤ)
    (variant : Option String) : Except String (Cell × ℤ × String) :=
  match checkFormatVariant variant degree with
  | .error msg => .error msg
  | .ok (v, _interpolantDeg) =>
      if degree < 1 then .error "BDM_k elements only valid for k >= 1"
      else .ok (refEl, degree, v)

/-- C8: for every reference cell and every degree strictly less than 1
(in particular degree 0), constructing a `BrezziDouglasMarini` element
raises a configuration error rather than returning an element: with
any variant some error is raised (the degree guard, or the variant
parser before it), and with the default variant it is exactly the
degree guard's message. -/
theorem brezziDouglasMarini_degree_guard {Cell : Type} (refEl : Cell)
    (degree : ℤ) (variant : Option String) (hdeg : degree < 1) :
    (∃ msg, brezziDouglasMarini refEl degree variant = .error msg)
    ∧ brezziDouglasMarini refEl degree none
        = .error "BDM_k elements only valid for k >= 1" := by
  constructor
  · unfold brezziDouglasMarini
    cases hv : checkFormatVariant variant degree with
    | error msg => exact ⟨msg, rfl⟩
    | ok p =>
        obtain ⟨v, q⟩ := p
        refine ⟨"BDM_k elements only valid for k >= 1", ?_⟩
        dsimp only
        rw [if_pos hdeg]
  · unfold brezziDouglasMarini checkFormatVariant
    dsimp only
    rw [if_pos hdeg]

/-- Witness for C8 at degree 0 on a token cell. -/
theorem brezziDouglasMarini_degree_guard_witness :
    (∃ msg, brezziDouglasMarini () 0 (some "point") = .error msg)
    ∧ brezziDouglasMarini () 0 none
        = .error "BDM_k elements only valid for k >= 1" :=
  brezziDouglasMarini_degree_guard () 0 (some "point") (by decide)

/-! ## P0Dual (P0.py lines 17-49)

`P0Dual.__init__` builds one `PointEvaluation` at `()` for a
0-dimensional cell and otherwise at `numpy.average(vs, 0)`; its loop
hands every entity of every dimension the empty dof list, and after
the loop `entity_ids[dim] = {0: [0]}` replaces the innermost dict at
the final loop dimension — the top dimension of the sorted topology —
with the single entity `0` holding dof `0`. -/

/-- The cell data `P0Dual.__init__` consumes: `get_vertices()`, the
sorted `get_topology()` items as `(dimension, entity count)` pairs
(each entity dict has keys `0, ..., n-1`), and `get_dimension()`. -/
structure P0CellData where
  verts : List (List ℚ)
  top : List (ℕ × ℕ)
  dim : ℕ

/-- `numpy.average(vs, 0)`: the componentwise average of the
vertices. -/
def averageVerts (vs : List (List ℚ)) : List ℚ :=
  (List.range (vs.headD []).length).map (fun j =>
    ((vs.map (fun v => v.getD j 0)).sum) / (vs.length : ℚ))

/-- The evaluation point of the single `P0Dual` node. -/
def p0Bary (c : P0CellData) : List ℚ :=
  if c.dim = 0 then [] else averageVerts c.verts

/-- The node list of `P0Dual`: one point evaluation at the
barycenter. -/
def p0Nodes (c : P0CellData) : List Node := [Node.pointEval (p0Bary c)]

/-- The `entity_ids` of `P0Dual` as `(dimension, per-entity dof
lists)` items: empty lists everywhere from the loop, then the final
dimension's dict replaced by `{0: [0]}`. -/
def p0EntityIds (c : P0CellData) : List (ℕ × List (List ℕ)) :=
  let base := c.top.map (fun dn => (dn.1, List.replicate dn.2 ([] : List ℕ)))
  base.dropLast ++ (match base.getLast? with
                    | none => []
                    | some dl => [(dl.1, [[0]])])

/-- C10: for every reference cell (nonempty topology listed in sorted
dimension order), `P0Dual` constructs exactly one node — a point
evaluation at the average of the cell's vertices, the empty tuple for
a 0-dimensional cell — and its `entity_ids` assign the single dof
index 0 to entity 0 of the top dimension while every entity of every
other dimension receives the empty list. -/
theorem p0Dual_spec (c : P0CellData) (hne : c.top ≠ [])
    (hsorted : c.top.Chain' (fun a b => a.1 < b.1)) :
    p0Nodes c = [Node.pointEval (p0Bary c)]
    ∧ (c.dim = 0 → p0Bary c = [])
    ∧ (c.dim ≠ 0 → p0Bary c = averageVerts c.verts)
    ∧ (p0EntityIds c).dropLast
        = c.top.dropLast.map
            (fun dn => (dn.1, List.replicate dn.2 ([] : List ℕ)))
    ∧ (p0EntityIds c).getLast?
        = (c.top.getLast?).map (fun dn => (dn.1, [[0]])) := by
  obtain ⟨last, hlast⟩ : ∃ last, c.top.getLast? = some last :=
    ⟨c.top.getLast hne, List.getLast?_eq_getLast c.top hne⟩
  have hmaplast : (c.top.map
      (fun dn => (dn.1, List.replicate dn.2 ([] : List ℕ)))).getLast?
        = some (last.1, List.replicate last.2 ([] : List ℕ)) := by
    rw [List.getLast?_map, hlast]
    rfl
  refine ⟨rfl, ?_, ?_, ?_, ?_⟩
  · intro h
    unfold p0Bary
    rw [if_pos h]
  · intro h
    unfold p0Bary
    rw [if_neg h]
  · unfold p0EntityIds
    simp only [hmaplast]
    rw [List.dropLast_concat, List.map_dropLast]
  · unfold p0EntityIds
    simp only [hmaplast]
    rw [List.getLast?_concat, hlast]
    rfl

/-- Witness for C10 on the UFC interval cell data. -/
theorem p0Dual_spec_witness :
    p0Nodes ⟨[[0], [1]], [(0, 2), (1, 1)], 1⟩
        = [Node.pointEval (p0Bary ⟨[[0], [1]], [(0, 2), (1, 1)], 1⟩)]
    ∧ ((1 : ℕ) = 0 → p0Bary ⟨[[0], [1]], [(0, 2), (1, 1)], 1⟩ = [])
    ∧ ((1 : ℕ) ≠ 0 → p0Bary ⟨[[0], [1]], [(0, 2), (1, 1)], 1⟩
          = averageVerts [[0], [1]])
    ∧ (p0EntityIds ⟨[[0], [1]], [(0, 2), (1, 1)], 1⟩).dropLast
        = [(0, 2), (1, 1)].dropLast.map
            (fun dn => (dn.1, List.replicate dn.2 ([] : List ℕ)))
    ∧ (p0EntityIds ⟨[[0], [1]], [(0, 2), (1, 1)], 1⟩).getLast?
        = ([(0, 2), (1, 1)].getLast?).map (fun dn => (dn.1, [[0]])) :=
  p0Dual_spec ⟨[[0], [1]], [(0, 2), (1, 1)], 1⟩ (by decide)
    (by simp [List.chain'_cons])

end FIATSpec
